import Mathlib

/-!
# Plugin loader: acquisition and installation pipeline

A shallow embedding of `main.go` (the external plugin loader for Telegraf) and the
properties of its pipeline: source classification, the download and repository
handlers, the executable locator and the installer.

Go strings are modelled as lists of characters.  The Go standard library functions the
program calls (`strings.*`, `filepath.*`, `filepath.Walk`) are transcribed from their Unix
implementations.  Everything the operating system, the network and the external tools
(`git`, `make`) decide is collected in the record `Env`; theorems quantify over it.
-/

namespace PluginLoader

/-- Go `string`, as a sequence of characters. -/
abbrev Str := List Char

/-! ## Go standard library: package `strings` -/

/-- Go `strings.HasSuffix`: `len(s) >= len(suffix) && s[len(s)-len(suffix):] == suffix`. -/
def HasSuffix (s suffix : Str) : Bool :=
  decide (suffix.length ≤ s.length) && s.drop (s.length - suffix.length) == suffix

/-- Go `strings.TrimSuffix`: `s` without the trailing `suffix`, or `s` itself. -/
def TrimSuffix (s suffix : Str) : Str :=
  if HasSuffix s suffix then s.take (s.length - suffix.length) else s

/-- Go `strings.Contains`: `substr` occurs in `s` at some index. -/
def Contains : Str → Str → Bool
  | [], substr => substr.isEmpty
  | c :: cs, substr => substr.isPrefixOf (c :: cs) || Contains cs substr

/-- Go `strings.Split(s, ",")`: the substrings between commas, one more than commas. -/
def Split : Str → List Str
  | [] => [[]]
  | c :: cs =>
    if c = ',' then [] :: Split cs
    else match Split cs with
      | [] => [[c]]
      | piece :: pieces => (c :: piece) :: pieces

/-- Go `unicode.IsSpace`: the code points with the Unicode White_Space property. -/
def isSpace (c : Char) : Bool :=
  let n := c.toNat
  (9 ≤ n && n ≤ 13) || n == 0x20 || n == 0x85 || n == 0xA0 || n == 0x1680 ||
  (0x2000 ≤ n && n ≤ 0x200A) || n == 0x2028 || n == 0x2029 || n == 0x202F ||
  n == 0x205F || n == 0x3000

/-- Go `strings.TrimSpace`: all leading and trailing white space removed. -/
def TrimSpace (s : Str) : Str :=
  ((s.dropWhile isSpace).reverse.dropWhile isSpace).reverse

/-- Go `strings.Join(elems, sep)`. -/
def stringsJoin (sep : Str) : List Str → Str
  | [] => []
  | [e] => e
  | e :: es => e ++ sep ++ stringsJoin sep es

/-! ## Go standard library: package `path/filepath` (Unix) -/

/-- Go `filepath.Base`: the last element of the path; trailing separators are removed first;
`.` for the empty path and `/` for a path of separators only. -/
def Base (path : Str) : Str :=
  if path = [] then ['.']
  else
    -- strip trailing slashes
    let p := (path.reverse.dropWhile (· == '/')).reverse
    -- find the last element
    let e := (p.reverse.takeWhile (· != '/')).reverse
    -- if empty now, it had only slashes
    if e = [] then ['/'] else e

/-- The backtracking of `Clean` at a `..` element: from write index `w` (already
decremented once) move left while `w > dotdot` and the byte at `w` is not a separator. -/
def backtrack (out : Str) (dotdot : Nat) : Nat → Nat
  | 0 => 0
  | w + 1 =>
    if dotdot < w + 1 ∧ out.get? (w + 1) ≠ some '/' then backtrack out dotdot w else w + 1

/-- The main loop of `filepath.Clean`: `path` is the unread rest of the input, `out` the
buffer written so far (`out.w = out.length`), `dotdot` the index where `..` must stop. Each
round consumes at least one character, so a fuel of the input length is enough. -/
def cleanLoop (rooted : Bool) : Nat → Str → Str → Nat → Str
  | 0, _, out, _ => out
  | _ + 1, [], out, _ => out
  | fuel + 1, c :: rest, out, dotdot =>
    if c = '/' then
      -- empty path element
      cleanLoop rooted fuel rest out dotdot
    else if c = '.' ∧ (rest = [] ∨ rest.head? = some '/') then
      -- . element
      cleanLoop rooted fuel rest out dotdot
    else if c = '.' ∧ rest.head? = some '.' ∧
        (rest.tail = [] ∨ rest.tail.head? = some '/') then
      -- .. element: remove to last separator
      if dotdot < out.length then
        cleanLoop rooted fuel rest.tail (out.take (backtrack out dotdot (out.length - 1))) dotdot
      else if rooted = false then
        -- cannot backtrack, but not rooted, so append .. element
        let out1 := (if 0 < out.length then out ++ ['/'] else out) ++ ['.', '.']
        cleanLoop rooted fuel rest.tail out1 out1.length
      else
        cleanLoop rooted fuel rest.tail out dotdot
    else
      -- real path element: add slash if needed, copy element
      let out1 :=
        if (rooted = true ∧ out.length ≠ 1) ∨ (rooted = false ∧ out.length ≠ 0) then
          out ++ ['/']
        else out
      cleanLoop rooted fuel ((c :: rest).dropWhile (· != '/'))
        (out1 ++ (c :: rest).takeWhile (· != '/')) dotdot

/-- Go `filepath.Clean`: the shortest path name equivalent to `path` by lexical processing. -/
def Clean (path : Str) : Str :=
  if path = [] then ['.']
  else
    let out :=
      if path.head? = some '/' then cleanLoop true path.length path.tail ['/'] 1
      else cleanLoop false path.length path [] 0
    -- turn empty string into "."
    if out = [] then ['.'] else out

/-- Go `filepath.Dir`: all but the last element of the path, cleaned. -/
def Dir (path : Str) : Str :=
  Clean (path.reverse.dropWhile (· != '/')).reverse

/-- Go `filepath.Join`: the elements from the first non-empty one on, joined with the
separator and cleaned; the empty string when all elements are empty. -/
def Join : List Str → Str
  | [] => []
  | e :: es => if e ≠ [] then Clean (stringsJoin ['/'] (e :: es)) else Join es

/-! ## The world outside the program -/

/-- What `os.Stat` and `os.Lstat` report: `Name()`, `IsDir()`, `Mode()`. -/
structure FileInfo where
  name : Str
  isDir : Bool
  mode : Nat
  deriving DecidableEq

/-- A file tree as `filepath.Walk` sees it.  The children of a directory stand in the
order in which `readDirNames` returns them (sorted by name). -/
inductive Node where
  /-- an entry that `Lstat` reports as no directory: a regular file, or a symbolic link,
  whatever it points to -/
  | file (name : Str) (mode : Nat)
  /-- a directory that can be listed -/
  | dir (name : Str) (mode : Nat) (children : List Node)
  /-- a directory whose listing fails -/
  | unreadable (name : Str) (mode : Nat)
  /-- a listed entry whose `Lstat` fails -/
  | vanished (name : Str)

/-- The name under which the parent directory lists the entry. -/
def Node.name : Node → Str
  | .file name _ => name
  | .dir name _ _ => name
  | .unreadable name _ => name
  | .vanished name => name

/-- Whether `Lstat` of the entry reports a directory. -/
def Node.isDir : Node → Bool
  | .dir _ _ _ => true
  | .unreadable _ _ => true
  | _ => false

/-- Whether `Lstat` of the entry fails. -/
def Node.lstatFails : Node → Bool
  | .vanished _ => true
  | _ => false

/-- An `io.Reader`: the bytes it delivers, and whether it ends with an error instead of
end-of-file. -/
structure Reader where
  bytes : List Nat
  fails : Bool
  deriving DecidableEq

/-- The outcome of `http.Get`. -/
inductive HttpResult where
  | transportError
  | response (statusCode : Nat) (body : Reader)
  deriving DecidableEq

/-- A regular file on disk: content and permission mode. -/
structure FileData where
  bytes : List Nat
  mode : Nat
  deriving DecidableEq

/-- The part of the file system the program changes: regular files and directories, by
path. -/
structure Disk where
  files : Str → Option FileData
  dirs : Str → Bool

/-- Whether `p` is `root` or lies beneath it. -/
def isUnder (root p : Str) : Bool :=
  p == root || (root ++ ['/']).isPrefixOf p

/-- The disk with the file at `path` replaced. -/
def Disk.setFile (d : Disk) (path : Str) (f : FileData) : Disk :=
  { d with files := fun p => if p = path then some f else d.files p }

/-- The disk with directory `path` present. -/
def Disk.mkdir (d : Disk) (path : Str) : Disk :=
  { d with dirs := fun p => if p = path then true else d.dirs p }

/-- Go `os.RemoveAll`, when it succeeds: `path` and everything beneath it is gone. -/
def Disk.removeAll (d : Disk) (path : Str) : Disk :=
  { files := fun p => if isUnder path p then none else d.files p
    dirs := fun p => if isUnder path p then false else d.dirs p }

/-- Everything the operating system, the network and the external tools decide.  The
external tools (`git`, `make`) are black boxes run with the rights of the process: besides
their exit status they return the regular files they leave on the disk, anywhere; the tree
they leave in the workspace is `workspace`. -/
structure Env where
  /-- Result of `os.Getenv` -/
  getenv : Str → Str
  /-- Whether `os.MkdirAll(path, 0755)` succeeds -/
  mkdirAll : Str → Bool
  /-- Result of `http.Get(url)` -/
  httpGet : Str → HttpResult
  /-- Result of `os.MkdirTemp`: the new directory, or `none` on failure -/
  mkdirTemp : Option Str
  /-- Result of `git clone --depth 1 url dir` on a disk: `some output` when the command
  fails, and the regular files on the disk afterwards -/
  gitClone : Str → Str → Disk → Option Str × (Str → Option FileData)
  /-- Result of `make` run in the directory on a disk: whether it exits with status 0, and
  the regular files on the disk afterwards -/
  make : Str → Disk → Bool × (Str → Option FileData)
  /-- Result of `os.Stat(path)` (symbolic links followed), `none` on error -/
  stat : Str → Option FileInfo
  /-- the tree `filepath.Walk` finds at the given root after the build -/
  workspace : Str → Node
  /-- Result of `os.Open(path)`, `none` on error -/
  openFile : Str → Option Reader
  /-- Whether `os.Create(path)` succeeds -/
  create : Str → Bool
  /-- the mode `os.Create` gives a file that did not exist (0666 before umask) -/
  newFileMode : Nat
  /-- writing into `path` breaks off with an error after this many bytes -/
  writeLimit : Str → Option Nat
  /-- Whether `os.Chmod(path, 0755)` succeeds -/
  chmod : Str → Bool
  /-- Whether `os.RemoveAll(path)` succeeds -/
  removeAll : Str → Bool

/-! ## `filepath.Walk` -/

/-- The error values a `WalkFunc` can return besides `nil`. -/
inductive WalkErr where
  | SkipDir
  | SkipAll
  | other
  deriving DecidableEq

/-- A `filepath.WalkFunc` acting on the variables it captures (`σ`): arguments are the
path, the `FileInfo` (`none` for Go's `nil`) and whether `err != nil`. -/
abbrev WalkFunc (σ : Type) := σ → Str → Option FileInfo → Bool → Option WalkErr × σ

mutual
/-- The recursive `walk` of `filepath.Walk` (for an entry whose `Lstat` failed: the call
of the callback that reports the error). -/
def walk {σ : Type} (fn : WalkFunc σ) (path : Str) : Node → σ → Option WalkErr × σ
  | .file name mode, s => fn s path (some ⟨name, false, mode⟩) false
  | .vanished _, s => fn s path none true
  | .unreadable name mode, s =>
    -- names, err := readDirNames(path); err1 := walkFn(path, info, err); return err1
    fn s path (some ⟨name, true, mode⟩) true
  | .dir name mode children, s =>
    match fn s path (some ⟨name, true, mode⟩) false with
    | (some err1, s1) => (some err1, s1)
    | (none, s1) => walkChildren fn path children s1
/-- The loop of `walk` over the names of a directory. -/
def walkChildren {σ : Type} (fn : WalkFunc σ) (path : Str) :
    List Node → σ → Option WalkErr × σ
  | [], s => (none, s)
  | child :: rest, s =>
    match walk fn (Join [path, child.name]) child s with
    | (none, s1) => walkChildren fn path rest s1
    | (some err, s1) =>
      if child.lstatFails then
        if err ≠ WalkErr.SkipDir then (some err, s1) else walkChildren fn path rest s1
      else if !child.isDir || err ≠ WalkErr.SkipDir then (some err, s1)
      else walkChildren fn path rest s1
end

/-- Go `filepath.Walk(root, fn)`. -/
def Walk {σ : Type} (fn : WalkFunc σ) (root : Str) (tree : Node) (s : σ) :
    Option WalkErr × σ :=
  match walk fn root tree s with
  | (some err, s1) =>
    if err = WalkErr.SkipDir ∨ err = WalkErr.SkipAll then (none, s1) else (some err, s1)
  | (none, s1) => (none, s1)

/-- Ghost wrapper: the same callback, with a record of every call made to it. -/
def logged {σ : Type} (fn : WalkFunc σ) : WalkFunc (σ × List (Str × Option FileInfo)) :=
  fun s path info err =>
    ((fn s.1 path info err).1, ((fn s.1 path info err).2, s.2 ++ [(path, info)]))

/-! ## The program -/

/-- Output directory for plugins. -/
def pluginsDir : Str := "/plugins".toList

/-- Name of the environment variable with the source list. -/
def envSources : Str := "PLUGIN_SOURCES".toList

/-- The errors the handlers return. -/
inductive Err where
  /-- Error `download failed: ...` -/
  | downloadFailed
  /-- Error `bad status: ...` -/
  | badStatus (statusCode : Nat)
  /-- Error `failed to create temp dir: ...` -/
  | tempDirFailed
  /-- Error `git clone failed: ...` -/
  | cloneFailed (output : Str)
  /-- Error `make failed: ...` -/
  | makeFailed
  /-- Error `no executable binary found after build` -/
  | noBinary
  /-- the error of `os.Open` -/
  | openFailed
  /-- the error of `os.Create` -/
  | createFailed
  /-- the error of `io.Copy` -/
  | copyFailed
  /-- the error of `os.Chmod` -/
  | chmodFailed
  deriving DecidableEq

/-- Source function `writeExecutable(path, r)`: create (or truncate) the file, copy the
stream, set mode 0755. -/
def writeExecutable (env : Env) (path : Str) (r : Reader) (d : Disk) : Option Err × Disk :=
  if env.create path = false then (some Err.createFailed, d)
  else
    -- os.Create truncates an existing file and keeps its mode
    let mode0 := match d.files path with
      | some f => f.mode
      | none => env.newFileMode
    match env.writeLimit path with
    | some k => (some Err.copyFailed, d.setFile path ⟨r.bytes.take k, mode0⟩)
    | none =>
      if r.fails then (some Err.copyFailed, d.setFile path ⟨r.bytes, mode0⟩)
      else if env.chmod path = false then
        (some Err.chmodFailed, d.setFile path ⟨r.bytes, mode0⟩)
      else (none, d.setFile path ⟨r.bytes, 0o755⟩)

/-- Source function `isExecutable(path)`. -/
def isExecutable (env : Env) (path : Str) : Bool :=
  match env.stat path with
  | none => false
  | some info => !info.isDir && (info.mode &&& 0o111 != 0)

/-- The `destPath` of `handleFile`: `filepath.Join(pluginsDir, filepath.Base(url))`. -/
def downloadDest (url : Str) : Str :=
  Join [pluginsDir, Base url]

/-- Source function `handleFile(url)`. -/
def handleFile (env : Env) (url : Str) (d : Disk) : Option Err × Disk :=
  match env.httpGet url with
  | .transportError => (some Err.downloadFailed, d)
  | .response statusCode body =>
    -- http.StatusOK = 200
    if statusCode ≠ 200 then (some (Err.badStatus statusCode), d)
    else writeExecutable env (downloadDest url) body d

/-- The closure passed to `filepath.Walk` in `handleRepo`; the captured variable is
`binPath`. -/
def walkFn : WalkFunc Str := fun binPath path info err =>
  if binPath ≠ [] ∨ err = true then (none, binPath)
  else
    match info with
    | none => (none, binPath) -- not reached: `Walk` passes a nil `info` only with an error
    | some info =>
      if info.isDir = true then (none, binPath)
      else if Contains path ".git".toList then (some WalkErr.SkipDir, binPath)
      else if info.mode &&& 0o111 ≠ 0 ∧ Contains info.name ".".toList = false then (none, path)
      else (none, binPath)

/-- The result of step 3 of `handleRepo`: the value of `binPath`, and (ghost) the calls
the walk made to the closure. -/
structure Located where
  binPath : Str
  walkCalls : List (Str × Option FileInfo)

/-- Step 3 of `handleRepo` ("Find Executable"). -/
def findExecutable (env : Env) (tempDir repoURL : Str) : Located :=
  let repoName := TrimSuffix (Base repoURL) ".git".toList
  -- check for exact match first
  if isExecutable env (Join [tempDir, repoName]) then ⟨Join [tempDir, repoName], []⟩
  else
    -- walk to find a likely binary
    let r := Walk (logged walkFn) tempDir (env.workspace tempDir) ([], [])
    ⟨r.2.1, r.2.2⟩

/-- The `destPath` of `handleRepo`: `filepath.Join(pluginsDir, filepath.Base(binPath))`. -/
def installDest (binPath : Str) : Str :=
  Join [pluginsDir, Base binPath]

/-- The disk after `git clone` ran. -/
def afterClone (env : Env) (repoURL tempDir : Str) (d : Disk) : Disk :=
  { d with files := (env.gitClone repoURL tempDir d).2 }

/-- The disk after `make` ran. -/
def afterMake (env : Env) (tempDir : Str) (d : Disk) : Disk :=
  { d with files := (env.make tempDir d).2 }

/-- The body of `handleRepo` after the workspace exists (steps 1 to 4). -/
def handleRepoBody (env : Env) (repoURL tempDir : Str) (d : Disk) : Option Err × Disk :=
  let d1 := afterClone env repoURL tempDir d
  match (env.gitClone repoURL tempDir d).1 with
  | some output => (some (Err.cloneFailed output), d1)
  | none =>
    let d2 := afterMake env tempDir d1
    if (env.make tempDir d1).1 = false then (some Err.makeFailed, d2)
    else
      let binPath := (findExecutable env tempDir repoURL).binPath
      if binPath = [] then (some Err.noBinary, d2)
      else
        match env.openFile binPath with
        | none => (some Err.openFailed, d2)
        | some f => writeExecutable env (installDest binPath) f d2

/-- Source function `handleRepo(repoURL)`: the body between `os.MkdirTemp` and the
deferred `os.RemoveAll`. -/
def handleRepo (env : Env) (repoURL : Str) (d : Disk) : Option Err × Disk :=
  match env.mkdirTemp with
  | none => (some Err.tempDirFailed, d)
  | some tempDir =>
    let r := handleRepoBody env repoURL tempDir (d.mkdir tempDir)
    (r.1, if env.removeAll tempDir then r.2.removeAll tempDir else r.2)

/-- Source function `processSource` over arbitrary handlers. -/
def processSourceWith {α : Type} (handleRepo handleFile : Str → α) (source : Str) : α :=
  if HasSuffix source ".git".toList then handleRepo source else handleFile source

/-- Source function `processSource(source)`. -/
def processSource (env : Env) (source : Str) (d : Disk) : Option Err × Disk :=
  processSourceWith (fun s => handleRepo env s d) (fun s => handleFile env s d) source

/-- The lines `main` prints. -/
inductive Msg where
  /-- Line `No PLUGIN_SOURCES environment variable found. Exiting.` -/
  | noSources
  /-- Line `Error creating plugins directory: ...` -/
  | mkdirError
  /-- Line `Processing source: ...` -/
  | processing (source : Str)
  /-- Line `Error processing ...: ...` -/
  | failed (source : Str) (err : Err)
  /-- Line `Successfully installed ...` -/
  | installed (source : Str)
  deriving DecidableEq

/-- The loop of `main` over the split source list, for any `processSource` acting on any
state. -/
def mainLoop {σ : Type} (ps : Str → σ → Option Err × σ) :
    List Str → σ → List Msg → σ × List Msg
  | [], st, out => (st, out)
  | source :: rest, st, out =>
    let source := TrimSpace source
    if source = [] then mainLoop ps rest st out
    else
      match ps source st with
      | (some err, st1) =>
        mainLoop ps rest st1 (out ++ [Msg.processing source, Msg.failed source err])
      | (none, st1) =>
        mainLoop ps rest st1 (out ++ [Msg.processing source, Msg.installed source])

/-- What a run of `main` leaves: exit status, printed lines, final state. -/
structure MainResult (σ : Type) where
  exitCode : Nat
  out : List Msg
  state : σ

/-- Source function `main`, for any `processSource` and any `os.MkdirAll` acting on any
state. -/
def mainWith {σ : Type} (ps : Str → σ → Option Err × σ) (mkdirAll : σ → Option σ)
    (sourcesEnv : Str) (st : σ) : MainResult σ :=
  if sourcesEnv = [] then ⟨0, [Msg.noSources], st⟩
  else
    match mkdirAll st with
    | none => ⟨1, [Msg.mkdirError], st⟩
    | some st1 =>
      let r := mainLoop ps (Split sourcesEnv) st1 []
      ⟨0, r.2, r.1⟩

/-- Source function `main()`. -/
def main (env : Env) (d : Disk) : MainResult Disk :=
  mainWith (processSource env)
    (fun d => if env.mkdirAll pluginsDir then some (d.mkdir pluginsDir) else none)
    (env.getenv envSources) d

/-! ## Vocabulary of the properties -/

/-- The two handlers `processSource` chooses between. -/
inductive Handler where
  | repo
  | file
  deriving DecidableEq

/-- The source list as the specification describes it: the comma-separated entries, each
trimmed of surrounding white space, blank entries discarded, in the configured order. -/
def configuredEntries (value : Str) : List Str :=
  ((Split value).map TrimSpace).filter (fun e => e ≠ [])

/-- The identifiers `main` announced with `Processing source:`, one per call of
`processSource`, in order. -/
def attempts : List Msg → List Str
  | [] => []
  | Msg.processing source :: rest => source :: attempts rest
  | _ :: rest => attempts rest

/-- The fetch errors of the download handler: transport failure or rejected status. -/
def Err.isFetch : Err → Bool
  | .downloadFailed => true
  | .badStatus _ => true
  | _ => false

/-- A name as a directory lists it: non-empty, without separator, neither `.` nor `..`. -/
def plainName (name : Str) : Prop :=
  name ≠ [] ∧ '/' ∉ name ∧ name ≠ ['.'] ∧ name ≠ ['.', '.']

/-- The buffer of `Clean` after a real path element `name` was appended to `out`. -/
def addElem (rooted : Bool) (out name : Str) : Str :=
  (if (rooted = true ∧ out.length ≠ 1) ∨ (rooted = false ∧ out.length ≠ 0) then
      out ++ ['/']
    else out) ++ name

mutual
/-- Every entry of a tree, with the path under which `filepath.Walk` reaches it and the
`FileInfo` it has there, in traversal order. -/
def walkEntries (path : Str) : Node → List (Str × Option FileInfo)
  | .file name mode => [(path, some ⟨name, false, mode⟩)]
  | .vanished _ => [(path, none)]
  | .unreadable name mode => [(path, some ⟨name, true, mode⟩)]
  | .dir name mode children => (path, some ⟨name, true, mode⟩) :: walkEntriesList path children
/-- The entries below the children of the directory at `path`. -/
def walkEntriesList (path : Str) : List Node → List (Str × Option FileInfo)
  | [] => []
  | child :: rest => walkEntries (Join [path, child.name]) child ++ walkEntriesList path rest
end

mutual
/-- Every entry below the node is listed under a plain name. -/
def Node.wellNamed : Node → Prop
  | .dir _ _ children => wellNamedList children
  | _ => True
/-- Every node of the list has a plain name and is well named. -/
def wellNamedList : List Node → Prop
  | [] => True
  | child :: rest => plainName child.name ∧ child.wellNamed ∧ wellNamedList rest
end

/-- What the tree walk of `handleRepo` maintains: every logged call is an entry of the
tree, and a non-empty `binPath` was reported by the walk as a non-directory with an
execute bit, a name without `.` and a path without `.git`. -/
def walkInv (entries : List (Str × Option FileInfo))
    (s : Str × List (Str × Option FileInfo)) : Prop :=
  (∀ c ∈ s.2, c ∈ entries) ∧
  (s.1 ≠ [] → ∃ info, (s.1, some info) ∈ s.2 ∧ info.isDir = false ∧
    '.' ∉ info.name ∧ info.mode &&& 0o111 ≠ 0 ∧ Contains s.1 ".git".toList = false)

/-- An environment in which nothing is configured and every operation succeeds. -/
def quietEnv : Env where
  getenv := fun _ => []
  mkdirAll := fun _ => true
  httpGet := fun _ => HttpResult.response 200 ⟨[], false⟩
  mkdirTemp := some "/tmp/telegraf-plugin-build-1".toList
  gitClone := fun _ _ d => (none, d.files)
  make := fun _ d => (true, d.files)
  stat := fun _ => none
  workspace := fun root => Node.dir (Base root) 0o700 []
  openFile := fun _ => some ⟨[], false⟩
  create := fun _ => true
  newFileMode := 0o644
  writeLimit := fun _ => none
  chmod := fun _ => true
  removeAll := fun _ => true

/-- The empty disk. -/
def emptyDisk : Disk where
  files := fun _ => none
  dirs := fun _ => false

/-- The source list `https://example.com/tool, ,https://example.com/foo.git`. -/
def twoSources : Str := "https://example.com/tool, ,https://example.com/foo.git".toList

/-- A run with two configured sources around a blank entry. -/
def twoSourcesEnv : Env := { quietEnv with getenv := fun _ => twoSources }

/-- A run in which the output directory cannot be created. -/
def noDirEnv : Env :=
  { quietEnv with
    getenv := fun _ => "https://example.com/tool".toList
    mkdirAll := fun _ => false }

/-- A server that answers every request with `204 No Content`. -/
def noContentEnv : Env :=
  { quietEnv with httpGet := fun _ => HttpResult.response 204 ⟨[], false⟩ }

/-- A server that answers every request with `404 Not Found`. -/
def notFoundEnv : Env :=
  { quietEnv with httpGet := fun _ => HttpResult.response 404 ⟨[60, 104, 62], false⟩ }

/-- A download of three bytes during which the disk takes one byte and then fails. -/
def diskFullEnv : Env :=
  { quietEnv with
    httpGet := fun _ => HttpResult.response 200 ⟨[127, 69, 76], false⟩
    writeLimit := fun _ => some 1 }

/-- A download of three bytes after which the mode of the new file cannot be changed. -/
def noChmodEnv : Env :=
  { quietEnv with
    httpGet := fun _ => HttpResult.response 200 ⟨[127, 69, 76], false⟩
    chmod := fun _ => false }

/-- A Makefile that copies a file into the output directory and then fails. -/
def installingMakeEnv : Env :=
  { quietEnv with
    make := fun _ d =>
      (false, fun p => if p = "/plugins/stale".toList then some ⟨[35], 0o644⟩ else d.files p) }

/-- A repository whose clone fails. -/
def cloneFailsEnv : Env :=
  { quietEnv with gitClone := fun _ _ d => (some "fatal".toList, d.files) }

/-- A build that left `bin`, a symbolic link to a directory, in the workspace: `Lstat`
reports a symbolic link with mode `Lrwxrwxrwx`, `Stat` a directory, and reading the opened
path fails at once. -/
def linkedDirEnv : Env :=
  { quietEnv with
    stat := fun p =>
      if p = "/tmp/telegraf-plugin-build-1/bin".toList then some ⟨"bin".toList, true, 0o755⟩
      else none
    workspace := fun root => Node.dir (Base root) 0o700
      [Node.file "Makefile".toList 0o644, Node.file "bin".toList 0o1000000777]
    openFile := fun _ => some ⟨[], true⟩ }

/-- A build that left the executable `foo` in the workspace, next to another executable
that sorts before it. -/
def fooBuiltEnv : Env :=
  { quietEnv with
    stat := fun p =>
      if p = "/tmp/telegraf-plugin-build-1/foo".toList then some ⟨"foo".toList, false, 0o755⟩
      else none
    workspace := fun root => Node.dir (Base root) 0o700
      [Node.file "Makefile".toList 0o644, Node.file "bar".toList 0o755,
        Node.file "foo".toList 0o755, Node.file "main.go".toList 0o644]
    openFile := fun _ => some ⟨[127, 69, 76, 70], false⟩ }

/-- A build that left the executable `plugin` in a workspace that also holds a
`.gitignore` file; the repository is not named after the executable. -/
def ignoreFileEnv : Env :=
  { quietEnv with
    workspace := fun root => Node.dir (Base root) 0o700
      [Node.file ".gitignore".toList 0o644, Node.file "plugin".toList 0o755] }

/-! ## Lemmas -/

theorem HasSuffix_iff (s suffix : Str) : HasSuffix s suffix = true ↔ suffix <:+ s := by
  unfold HasSuffix
  rw [List.suffix_iff_eq_drop]
  constructor
  · intro h
    simp only [Bool.and_eq_true, decide_eq_true_eq, beq_iff_eq] at h
    exact h.2.symm
  · intro h
    simp only [Bool.and_eq_true, decide_eq_true_eq, beq_iff_eq]
    refine ⟨?_, h.symm⟩
    have := congrArg List.length h
    simp at this
    omega

theorem mainLoop_state {σ : Type} (ps : Str → σ → Option Err × σ) (l : List Str) :
    ∀ (st : σ) (out : List Msg),
      (mainLoop ps l st out).1 =
        ((l.map TrimSpace).filter (fun e => e ≠ [])).foldl (fun s e => (ps e s).2) st := by
  induction l with
  | nil => intro st out; rfl
  | cons a l ih =>
    intro st out
    by_cases h : TrimSpace a = []
    · simp [mainLoop, h, ih]
    · simp only [mainLoop, h, if_false, List.map_cons]
      rw [List.filter_cons_of_pos (by simpa using h)]
      cases hp : ps (TrimSpace a) st with
      | mk r st1 => cases r <;> simp [ih, hp]

theorem attempts_append (a b : List Msg) : attempts (a ++ b) = attempts a ++ attempts b := by
  induction a with
  | nil => rfl
  | cons m a ih => cases m <;> simp [attempts, ih]

theorem mainLoop_attempts {σ : Type} (ps : Str → σ → Option Err × σ) (l : List Str) :
    ∀ (st : σ) (out : List Msg),
      attempts (mainLoop ps l st out).2 =
        attempts out ++ (l.map TrimSpace).filter (fun e => e ≠ []) := by
  induction l with
  | nil => intro st out; simp [mainLoop]
  | cons a l ih =>
    intro st out
    by_cases h : TrimSpace a = []
    · simp [mainLoop, h, ih]
    · simp only [mainLoop, h, if_false, List.map_cons]
      rw [List.filter_cons_of_pos (by simpa using h)]
      cases hp : ps (TrimSpace a) st with
      | mk r st1 => cases r <;> simp [ih, hp, attempts_append, attempts]

theorem mainWith_run {σ : Type} (ps : Str → σ → Option Err × σ)
    (mkdirAll : σ → Option σ) (value : Str) (st st1 : σ) (hvalue : value ≠ [])
    (hdir : mkdirAll st = some st1) :
    attempts (mainWith ps mkdirAll value st).out = configuredEntries value ∧
    (mainWith ps mkdirAll value st).state =
      (configuredEntries value).foldl (fun s e => (ps e s).2) st1 ∧
    (mainWith ps mkdirAll value st).exitCode = 0 := by
  simp only [mainWith, hvalue, if_false, hdir, configuredEntries]
  refine ⟨?_, ?_, trivial⟩
  · rw [mainLoop_attempts]; rfl
  · rw [mainLoop_state]

/-- The errors of `writeExecutable` are those of `os.Create`, `io.Copy` and `os.Chmod`. -/
theorem writeExecutable_err (env : Env) (path : Str) (r : Reader) (d : Disk) (e : Err)
    (h : (writeExecutable env path r d).1 = some e) :
    (e = Err.createFailed ∧ (writeExecutable env path r d).2 = d) ∨
    e = Err.copyFailed ∨ e = Err.chmodFailed := by
  unfold writeExecutable at h ⊢
  by_cases hc : env.create path = false
  · simp only [hc, if_true] at h ⊢
    left; exact ⟨by simpa using h.symm, trivial⟩
  · simp only [hc, if_false] at h ⊢
    right
    cases hl : env.writeLimit path with
    | some k => simp only [hl] at h; left; simpa using h.symm
    | none =>
      simp only [hl] at h
      by_cases hf : r.fails = true
      · simp only [hf, if_true] at h; left; simpa using h.symm
      · simp only [hf] at h
        by_cases hm : env.chmod path = false
        · simp only [hm, if_true] at h; right; simpa using h.symm
        · simp [hm] at h

theorem writeExecutable_dirs (env : Env) (path : Str) (r : Reader) (d : Disk) :
    (writeExecutable env path r d).2.dirs = d.dirs := by
  unfold writeExecutable
  by_cases hc : env.create path = false
  · simp [hc]
  · simp only [hc, if_false]
    cases hl : env.writeLimit path with
    | some k => rfl
    | none =>
      by_cases hf : r.fails = true
      · simp [hf, Disk.setFile]
      · by_cases hm : env.chmod path = false
        · simp [hf, hm, Disk.setFile]
        · simp [hf, hm, Disk.setFile]

/-- An error of `handleFile` other than a copy or chmod error leaves the disk as it was. -/
theorem handleFile_err (env : Env) (url : Str) (d : Disk) (e : Err)
    (h : (handleFile env url d).1 = some e) (hcopy : e ≠ Err.copyFailed)
    (hchmod : e ≠ Err.chmodFailed) : (handleFile env url d).2 = d := by
  unfold handleFile at h ⊢
  cases hg : env.httpGet url with
  | transportError => rfl
  | response sc body =>
    simp only [hg] at h ⊢
    by_cases hs : sc = 200
    · simp only [hs, ne_eq, not_true_eq_false, if_false] at h ⊢
      rcases writeExecutable_err env _ body d e h with h1 | h1 | h1
      · exact h1.2
      · exact absurd h1 hcopy
      · exact absurd h1 hchmod
    · simp [hs]

/-- An error of the body of `handleRepo` other than a copy or chmod error leaves a file
as it was, if `git clone` and `make` leave it as it was. -/
theorem handleRepoBody_err (env : Env) (repoURL tempDir : Str) (d : Disk) (e : Err) (p : Str)
    (h : (handleRepoBody env repoURL tempDir d).1 = some e) (hcopy : e ≠ Err.copyFailed)
    (hchmod : e ≠ Err.chmodFailed)
    (hclone : ∀ t d0, (env.gitClone repoURL t d0).2 p = d0.files p)
    (hmake : ∀ t d0, (env.make t d0).2 p = d0.files p) :
    (handleRepoBody env repoURL tempDir d).2.files p = d.files p := by
  have h1 : (afterClone env repoURL tempDir d).files p = d.files p := hclone tempDir d
  have h2 : (afterMake env tempDir (afterClone env repoURL tempDir d)).files p = d.files p :=
    (hmake tempDir _).trans h1
  unfold handleRepoBody at h ⊢
  simp only at h ⊢
  cases hg : (env.gitClone repoURL tempDir d).1 with
  | some output => exact h1
  | none =>
    simp only [hg] at h ⊢
    by_cases hm : (env.make tempDir (afterClone env repoURL tempDir d)).1 = false
    · simp only [hm, if_true]; exact h2
    · simp only [hm, if_false, Bool.true_eq_false] at h ⊢
      by_cases hb : (findExecutable env tempDir repoURL).binPath = []
      · simp only [hb, if_true]; exact h2
      · simp only [hb, if_false] at h ⊢
        cases ho : env.openFile (findExecutable env tempDir repoURL).binPath with
        | none => exact h2
        | some f =>
          simp only [ho] at h ⊢
          rcases writeExecutable_err env _ f _ e h with h3 | h3 | h3
          · rw [h3.2]; exact h2
          · exact absurd h3 hcopy
          · exact absurd h3 hchmod

theorem handleRepoBody_dirs (env : Env) (repoURL tempDir : Str) (d : Disk) :
    (handleRepoBody env repoURL tempDir d).2.dirs = d.dirs := by
  unfold handleRepoBody
  simp only
  cases hg : (env.gitClone repoURL tempDir d).1 with
  | some output => rfl
  | none =>
    simp only
    by_cases hm : (env.make tempDir (afterClone env repoURL tempDir d)).1 = false
    · simp only [hm, if_true]; rfl
    · simp only [hm, if_false, Bool.true_eq_false]
      by_cases hb : (findExecutable env tempDir repoURL).binPath = []
      · simp only [hb, if_true]; rfl
      · simp only [hb, if_false]
        cases ho : env.openFile (findExecutable env tempDir repoURL).binPath with
        | none => rfl
        | some f => exact (writeExecutable_dirs env _ f _).trans rfl

theorem takeWhile_sep (x y : Str) :
    (x ++ '/' :: y).takeWhile (· != '/') = x.takeWhile (· != '/') := by
  induction x with
  | nil => simp
  | cons c x ih =>
    by_cases h : c = '/'
    · simp [h]
    · simp [List.takeWhile_cons, h, ih]

theorem dropWhile_sep (x y : Str) :
    (x ++ '/' :: y).dropWhile (· != '/') = x.dropWhile (· != '/') ++ '/' :: y := by
  induction x with
  | nil => simp
  | cons c x ih =>
    by_cases h : c = '/'
    · simp [h]
    · simp [List.dropWhile_cons, h, ih]

theorem takeWhile_noSep (x : Str) (h : '/' ∉ x) : x.takeWhile (· != '/') = x := by
  rw [List.takeWhile_eq_self_iff]
  intro c hc
  have : c ≠ '/' := fun e => h (e ▸ hc)
  simpa using this

theorem dropWhile_noSep (x : Str) (h : '/' ∉ x) : x.dropWhile (· != '/') = [] := by
  rw [List.dropWhile_eq_nil_iff]
  intro c hc
  have : c ≠ '/' := fun e => h (e ▸ hc)
  simpa using this

theorem length_dropWhile_le (p : Char → Bool) (x : Str) :
    (x.dropWhile p).length ≤ x.length := by
  induction x with
  | nil => simp
  | cons c x ih =>
    rw [List.dropWhile_cons]
    split
    · simp; omega
    · simp

theorem cleanLoop_nil (rooted : Bool) (fuel : Nat) (out : Str) (dotdot : Nat) :
    cleanLoop rooted fuel [] out dotdot = out := by
  cases fuel <;> rfl

theorem cleanLoop_plain (rooted : Bool) (name : Str) (hname : plainName name) (fuel : Nat)
    (out : Str) (dotdot : Nat) (hfuel : name.length ≤ fuel) :
    cleanLoop rooted fuel name out dotdot = addElem rooted out name := by
  obtain ⟨hne, hsep, hdot, hdotdot⟩ := hname
  cases name with
  | nil => exact absurd rfl hne
  | cons c rest =>
    cases fuel with
    | zero => simp at hfuel
    | succ fuel =>
      have hc : c ≠ '/' := fun e => hsep (e ▸ List.mem_cons_self _ _)
      have hrest : '/' ∉ rest := fun h => hsep (List.mem_cons_of_mem _ h)
      have h1 : ¬ (c = '.' ∧ (rest = [] ∨ rest.head? = some '/')) := by
        rintro ⟨e, h | h⟩
        · exact hdot (by rw [e, h])
        · rw [List.head?_eq_some_iff] at h
          obtain ⟨ys, hys⟩ := h
          exact hrest (hys ▸ List.mem_cons_self _ _)
      have h2 : ¬ (c = '.' ∧ rest.head? = some '.' ∧
          (rest.tail = [] ∨ rest.tail.head? = some '/')) := by
        rintro ⟨e, h, h3⟩
        rw [List.head?_eq_some_iff] at h
        obtain ⟨ys, hys⟩ := h
        subst hys
        rcases h3 with h3 | h3
        · simp only [List.tail_cons] at h3
          exact hdotdot (by rw [e, h3])
        · simp only [List.tail_cons] at h3
          rw [List.head?_eq_some_iff] at h3
          obtain ⟨zs, hzs⟩ := h3
          exact hrest (hzs ▸ List.mem_cons_of_mem _ (List.mem_cons_self _ _))
      rw [cleanLoop, if_neg hc, if_neg h1, if_neg h2]
      rw [takeWhile_noSep _ hsep, dropWhile_noSep _ hsep, cleanLoop_nil]
      rfl

theorem dotCond_append (a y : Str) :
    ((a ++ '/' :: y) = [] ∨ (a ++ '/' :: y).head? = some '/') ↔
      (a = [] ∨ a.head? = some '/') := by
  cases a <;> simp

theorem dotdotCond_append (a y : Str) :
    ((a ++ '/' :: y).head? = some '.' ∧
      ((a ++ '/' :: y).tail = [] ∨ (a ++ '/' :: y).tail.head? = some '/')) ↔
    (a.head? = some '.' ∧ (a.tail = [] ∨ a.tail.head? = some '/')) := by
  cases a with
  | nil => simp
  | cons x a => cases a <;> simp

theorem cleanLoop_snoc_elem (rooted : Bool) (name : Str) (hname : plainName name) :
    ∀ (n : Nat) (a out : Str) (dotdot f1 f2 : Nat), a.length ≤ n → a.length ≤ f1 →
      a.length + 1 + name.length ≤ f2 →
      cleanLoop rooted f2 (a ++ '/' :: name) out dotdot
        = addElem rooted (cleanLoop rooted f1 a out dotdot) name := by
  intro n
  induction n with
  | zero =>
    intro a out dotdot f1 f2 ha _ h2
    have : a = [] := List.length_eq_zero.mp (by omega)
    subst this
    cases f2 with
    | zero => omega
    | succ f2 =>
      simp only [List.nil_append, cleanLoop_nil]
      rw [cleanLoop, if_pos rfl]
      exact cleanLoop_plain rooted name hname f2 out dotdot (by simp at h2; omega)
  | succ n ih =>
    intro a out dotdot f1 f2 ha h1 h2
    cases a with
    | nil =>
      cases f2 with
      | zero => omega
      | succ f2 =>
        simp only [List.nil_append, cleanLoop_nil]
        rw [cleanLoop, if_pos rfl]
        exact cleanLoop_plain rooted name hname f2 out dotdot (by simp at h2; omega)
    | cons c a =>
      cases f1 with
      | zero => simp at h1
      | succ f1 =>
        cases f2 with
        | zero => omega
        | succ f2 =>
          simp only [List.length_cons] at ha h1 h2
          rw [List.cons_append, cleanLoop, cleanLoop]
          by_cases hc : c = '/'
          · rw [if_pos hc, if_pos hc]
            exact ih a out dotdot f1 f2 (by omega) (by omega) (by omega)
          · rw [if_neg hc, if_neg hc]
            simp only [dotCond_append, dotdotCond_append]
            by_cases hd : c = '.' ∧ (a = [] ∨ a.head? = some '/')
            · rw [if_pos hd, if_pos hd]
              exact ih a out dotdot f1 f2 (by omega) (by omega) (by omega)
            · rw [if_neg hd, if_neg hd]
              by_cases hdd : c = '.' ∧ a.head? = some '.' ∧
                  (a.tail = [] ∨ a.tail.head? = some '/')
              · rw [if_pos hdd, if_pos hdd]
                have hane : a ≠ [] := by
                  intro e; rw [e] at hdd; simp at hdd
                have htail : (a ++ '/' :: name).tail = a.tail ++ '/' :: name := by
                  cases a with
                  | nil => exact absurd rfl hane
                  | cons x a => rfl
                have hlen : a.tail.length ≤ a.length := by simp
                rw [htail]
                by_cases hb : dotdot < out.length
                · rw [if_pos hb, if_pos hb]
                  exact ih _ _ _ f1 f2 (by omega) (by omega) (by omega)
                · rw [if_neg hb, if_neg hb]
                  by_cases hr : rooted = false
                  · rw [if_pos hr, if_pos hr]
                    exact ih _ _ _ f1 f2 (by omega) (by omega) (by omega)
                  · rw [if_neg hr, if_neg hr]
                    exact ih _ _ _ f1 f2 (by omega) (by omega) (by omega)
              · rw [if_neg hdd, if_neg hdd]
                have hdw := dropWhile_sep (c :: a) name
                have htw := takeWhile_sep (c :: a) name
                rw [List.cons_append] at hdw htw
                rw [hdw, htw]
                have hlen : ((c :: a).dropWhile (· != '/')).length ≤ a.length := by
                  rw [List.dropWhile_cons_of_pos (by simpa using hc)]
                  exact length_dropWhile_le _ _
                exact ih _ _ _ f1 f2 (by omega) (by omega) (by omega)

theorem backtrack_ge (out : Str) (dotdot : Nat) :
    ∀ w, dotdot ≤ w → dotdot ≤ backtrack out dotdot w := by
  intro w
  induction w with
  | zero => intro h; simpa [backtrack] using h
  | succ w ih =>
    intro h
    rw [backtrack]
    split
    · rename_i hc
      exact ih (by omega)
    · exact h

theorem head?_take_pos (out : Str) (k : Nat) (hk : 1 ≤ k) : (out.take k).head? = out.head? := by
  cases out with
  | nil => simp
  | cons c out =>
    cases k with
    | zero => omega
    | succ k => simp

theorem head?_append_left (out rest : Str) (c : Char) (h : out.head? = some c) :
    (out ++ rest).head? = some c := by
  rw [List.head?_append, h]; rfl

theorem cleanLoop_rooted_head :
    ∀ (n : Nat) (a out : Str) (dotdot f : Nat), a.length ≤ n → out.head? = some '/' →
      1 ≤ dotdot → (cleanLoop true f a out dotdot).head? = some '/' := by
  intro n
  induction n with
  | zero =>
    intro a out dotdot f ha hout _
    have : a = [] := List.length_eq_zero.mp (by omega)
    subst this
    rw [cleanLoop_nil]; exact hout
  | succ n ih =>
    intro a out dotdot f ha hout hdd
    cases a with
    | nil => rw [cleanLoop_nil]; exact hout
    | cons c a =>
      cases f with
      | zero => exact hout
      | succ f =>
        simp only [List.length_cons] at ha
        have hlen : a.tail.length ≤ a.length := by simp
        rw [cleanLoop]
        split
        · exact ih _ _ _ f (by omega) hout hdd
        · split
          · exact ih _ _ _ f (by omega) hout hdd
          · split
            · split
              · rename_i hb
                refine ih _ _ _ f (by omega) ?_ hdd
                rw [head?_take_pos _ _ ?_]
                · exact hout
                · exact le_trans hdd (backtrack_ge out dotdot _ (by omega))
              · split
                · rename_i hr; exact absurd hr (by decide)
                · exact ih _ _ _ f (by omega) hout hdd
            · rename_i hc _ _
              refine ih _ _ _ f ?_ ?_ hdd
              · rw [List.dropWhile_cons_of_pos (by simpa using hc)]
                exact le_trans (length_dropWhile_le _ _) (by omega)
              · apply head?_append_left
                split
                · exact head?_append_left _ _ _ hout
                · exact hout

theorem Base_append_plain (pre name : Str) (hne : name ≠ []) (hsep : '/' ∉ name)
    (hpre : pre = [] ∨ pre.getLast? = some '/') : Base (pre ++ name) = name := by
  have hne2 : pre ++ name ≠ [] := by simp [hne]
  have hrne : name.reverse ≠ [] := by simpa using hne
  have hrsep : ∀ c ∈ name.reverse, (c != '/') = true := by
    intro c hc
    have : c ≠ '/' := fun e => hsep (e ▸ List.mem_reverse.mp hc)
    simpa using this
  have hdrop : (name.reverse ++ pre.reverse).dropWhile (· == '/')
      = name.reverse ++ pre.reverse := by
    cases hr : name.reverse with
    | nil => exact absurd hr hrne
    | cons x r =>
      have hx := hrsep x (by rw [hr]; exact List.mem_cons_self _ _)
      rw [List.cons_append, List.dropWhile_cons_of_neg]
      simpa using hx
  have htake : (pre.reverse).takeWhile (· != '/') = [] := by
    rcases hpre with h | h
    · simp [h]
    · rw [List.getLast?_eq_some_iff] at h
      obtain ⟨ys, hys⟩ := h
      simp [hys]
  unfold Base
  rw [if_neg hne2]
  simp only [List.reverse_append, hdrop, List.reverse_reverse]
  rw [List.takeWhile_append_of_pos hrsep, htake]
  simp [hne]

theorem Base_ne_nil (path : Str) : Base path ≠ [] := by
  unfold Base
  split
  · simp
  · simp only
    split
    · simp
    · assumption

theorem Base_noSep (path : Str) (h : Base path ≠ ['/']) : '/' ∉ Base path := by
  unfold Base at h ⊢
  by_cases hp : path = []
  · simp [hp]
  · rw [if_neg hp] at h ⊢
    simp only at h ⊢
    split
    · rename_i he
      rw [if_pos he] at h
      exact absurd rfl h
    · intro hmem
      have := List.mem_takeWhile_imp (List.mem_reverse.mp hmem)
      simp at this

theorem Join_pair (t name : Str) :
    Join [t, name] =
      if t ≠ [] then Clean (t ++ '/' :: name) else if name ≠ [] then Clean name else [] := by
  by_cases ht : t = []
  · by_cases hn : name = []
    · simp [Join, ht, hn]
    · simp [Join, ht, hn, stringsJoin]
  · simp [Join, ht, stringsJoin]

theorem addElem_ne_nil (rooted : Bool) (out name : Str) (hne : name ≠ []) :
    addElem rooted out name ≠ [] := by
  simp [addElem, hne]

theorem Clean_plain (name : Str) (hname : plainName name) : Clean name = name := by
  have hne := hname.1
  have hroot : ¬ name.head? = some '/' := by
    intro h
    rw [List.head?_eq_some_iff] at h
    obtain ⟨ys, hys⟩ := h
    exact hname.2.1 (hys ▸ List.mem_cons_self _ _)
  unfold Clean
  rw [if_neg hne]
  simp only [if_neg hroot]
  rw [cleanLoop_plain false name hname _ _ _ (le_refl _)]
  rw [if_neg (addElem_ne_nil _ _ _ hne)]
  simp [addElem]

/-- Result of `Clean` of a path that ends in a separator and a plain name: the cleaned
front part, a separator unless the front part is empty or the root, and the name. -/
theorem Clean_snoc (t name : Str) (ht : t ≠ []) (hname : plainName name) :
    Clean (t ++ '/' :: name) =
      if t.head? = some '/' then addElem true (cleanLoop true t.length t.tail ['/'] 1) name
      else addElem false (cleanLoop false t.length t [] 0) name := by
  have hne : t ++ '/' :: name ≠ [] := by simp
  have hhead : (t ++ '/' :: name).head? = t.head? := by
    cases t with
    | nil => exact absurd rfl ht
    | cons c t => rfl
  have htail : (t ++ '/' :: name).tail = t.tail ++ '/' :: name := by
    cases t with
    | nil => exact absurd rfl ht
    | cons c t => rfl
  have hlen : t.tail.length + 1 = t.length := by
    cases t with
    | nil => exact absurd rfl ht
    | cons c t => simp
  unfold Clean
  rw [if_neg hne]
  simp only [hhead, htail]
  by_cases hr : t.head? = some '/'
  · simp only [if_pos hr]
    rw [cleanLoop_snoc_elem true name hname t.tail.length t.tail ['/'] 1 t.length _ (le_refl _)
      (by omega) (by simp; omega)]
    rw [if_neg (addElem_ne_nil _ _ _ hname.1)]
  · simp only [if_neg hr]
    rw [cleanLoop_snoc_elem false name hname t.length t [] 0 t.length _ (le_refl _)
      (le_refl _) (by simp; omega)]
    rw [if_neg (addElem_ne_nil _ _ _ hname.1)]

theorem Base_addElem (rooted : Bool) (out name : Str) (hname : plainName name)
    (hroot : rooted = true → out.head? = some '/') : Base (addElem rooted out name) = name := by
  unfold addElem
  apply Base_append_plain _ _ hname.1 hname.2.1
  split
  · right; simp
  · rename_i h
    simp only [not_or, not_and, ne_eq, not_not] at h
    cases rooted with
    | false => left; exact List.length_eq_zero.mp (h.2 rfl)
    | true =>
      right
      have h1 := h.1 rfl
      have h2 := hroot rfl
      match out, h1, h2 with
      | [c], _, h2 => simpa using h2

/-- The last element of a path joined from any directory and a plain name is the name. -/
theorem Base_Join (t name : Str) (hname : plainName name) : Base (Join [t, name]) = name := by
  rw [Join_pair]
  by_cases ht : t = []
  · rw [if_neg (by simpa using ht), if_pos hname.1, Clean_plain name hname]
    exact Base_append_plain [] name hname.1 hname.2.1 (Or.inl rfl)
  · rw [if_pos ht, Clean_snoc t name ht hname]
    split
    · apply Base_addElem true _ _ hname
      intro _
      exact cleanLoop_rooted_head _ _ _ _ _ (le_refl _) rfl (le_refl _)
    · apply Base_addElem false _ _ hname
      intro h; exact absurd h (by decide)

/-- A plain name joined to the output directory: `/plugins/` followed by the name. -/
theorem Join_pluginsDir (name : Str) (hname : plainName name) :
    Join [pluginsDir, name] = pluginsDir ++ '/' :: name := by
  rw [Join_pair, if_pos (by decide), Clean_snoc pluginsDir name (by decide) hname]
  rw [if_pos (by decide)]
  have : cleanLoop true pluginsDir.length pluginsDir.tail ['/'] 1 = pluginsDir := by decide
  rw [this]
  simp [addElem, pluginsDir]

/-- The directory of a plain name below the output directory is the output directory. -/
theorem Dir_pluginsDir (name : Str) (hsep : '/' ∉ name) :
    Dir (pluginsDir ++ '/' :: name) = pluginsDir := by
  have hrsep : ∀ c ∈ name.reverse, (c != '/') = true := by
    intro c hc
    have : c ≠ '/' := fun e => hsep (e ▸ List.mem_reverse.mp hc)
    simpa using this
  have hrev : (pluginsDir ++ '/' :: name).reverse = name.reverse ++ '/' :: pluginsDir.reverse := by
    simp
  unfold Dir
  rw [hrev, List.dropWhile_append_of_pos hrsep, List.dropWhile_cons_of_neg (by simp)]
  decide

mutual
theorem walk_inv {σ : Type} (fn : WalkFunc σ) (I : σ → Prop)
    (Q : Str × Option FileInfo → Prop)
    (hstep : ∀ s path info err, Q (path, info) → I s → I (fn s path info err).2) :
    ∀ (node : Node) (path : Str) (s : σ), (∀ c ∈ walkEntries path node, Q c) → I s →
      I (walk fn path node s).2
  | .file name mode, path, s, hq, hs => by
    rw [walk]; exact hstep _ _ _ _ (hq _ (by simp [walkEntries])) hs
  | .vanished _, path, s, hq, hs => by
    rw [walk]; exact hstep _ _ _ _ (hq _ (by simp [walkEntries])) hs
  | .unreadable name mode, path, s, hq, hs => by
    rw [walk]; exact hstep _ _ _ _ (hq _ (by simp [walkEntries])) hs
  | .dir name mode children, path, s, hq, hs => by
    rw [walk]
    have h1 := hstep s path (some ⟨name, true, mode⟩) false (hq _ (by simp [walkEntries])) hs
    cases hf : fn s path (some ⟨name, true, mode⟩) false with
    | mk e s1 =>
      rw [hf] at h1
      cases e with
      | some err1 => exact h1
      | none =>
        exact walkChildren_inv fn I Q hstep children path s1
          (fun c hc => hq c (by simp [walkEntries, hc])) h1
theorem walkChildren_inv {σ : Type} (fn : WalkFunc σ) (I : σ → Prop)
    (Q : Str × Option FileInfo → Prop)
    (hstep : ∀ s path info err, Q (path, info) → I s → I (fn s path info err).2) :
    ∀ (children : List Node) (path : Str) (s : σ),
      (∀ c ∈ walkEntriesList path children, Q c) →
      I s → I (walkChildren fn path children s).2
  | [], path, s, hq, hs => by rw [walkChildren]; exact hs
  | child :: rest, path, s, hq, hs => by
    rw [walkChildren]
    have h1 := walk_inv fn I Q hstep child (Join [path, child.name]) s
      (fun c hc => hq c (by simp [walkEntriesList, hc])) hs
    have hrest : ∀ s1, I s1 → I (walkChildren fn path rest s1).2 := fun s1 hs1 =>
      walkChildren_inv fn I Q hstep rest path s1
        (fun c hc => hq c (by simp [walkEntriesList, hc])) hs1
    cases hw : walk fn (Join [path, child.name]) child s with
    | mk e s1 =>
      rw [hw] at h1
      cases e with
      | none => exact hrest s1 h1
      | some err =>
        simp only
        split
        · split
          · exact h1
          · exact hrest s1 h1
        · split
          · exact h1
          · exact hrest s1 h1
end

theorem Walk_inv {σ : Type} (fn : WalkFunc σ) (I : σ → Prop)
    (Q : Str × Option FileInfo → Prop)
    (hstep : ∀ s path info err, Q (path, info) → I s → I (fn s path info err).2)
    (root : Str) (tree : Node) (s : σ) (hq : ∀ c ∈ walkEntries root tree, Q c) (hs : I s) :
    I (Walk fn root tree s).2 := by
  have h := walk_inv fn I Q hstep tree root s hq hs
  unfold Walk
  cases hw : walk fn root tree s with
  | mk e s1 =>
    rw [hw] at h
    cases e with
    | none => exact h
    | some err =>
      simp only
      split
      · exact h
      · exact h

mutual
theorem walk_logged {σ : Type} (fn : WalkFunc σ) :
    ∀ (node : Node) (path : Str) (s : σ) (log : List (Str × Option FileInfo)),
      (walk (logged fn) path node (s, log)).1 = (walk fn path node s).1 ∧
      (walk (logged fn) path node (s, log)).2.1 = (walk fn path node s).2
  | .file name mode, path, s, log => by simp [walk, logged]
  | .vanished _, path, s, log => by simp [walk, logged]
  | .unreadable name mode, path, s, log => by simp [walk, logged]
  | .dir name mode children, path, s, log => by
    rw [walk, walk]
    cases hf : fn s path (some ⟨name, true, mode⟩) false with
    | mk e s1 =>
      have hl : logged fn (s, log) path (some ⟨name, true, mode⟩) false
          = (e, (s1, log ++ [(path, some ⟨name, true, mode⟩)])) := by
        simp [logged, hf]
      rw [hl]
      cases e with
      | some err1 => exact ⟨rfl, rfl⟩
      | none => exact walkChildren_logged fn children path s1 _
theorem walkChildren_logged {σ : Type} (fn : WalkFunc σ) :
    ∀ (children : List Node) (path : Str) (s : σ) (log : List (Str × Option FileInfo)),
      (walkChildren (logged fn) path children (s, log)).1 = (walkChildren fn path children s).1 ∧
      (walkChildren (logged fn) path children (s, log)).2.1 = (walkChildren fn path children s).2
  | [], path, s, log => by simp [walkChildren]
  | child :: rest, path, s, log => by
    rw [walkChildren, walkChildren]
    have h1 := walk_logged fn child (Join [path, child.name]) s log
    cases hw : walk fn (Join [path, child.name]) child s with
    | mk e s1 =>
      cases hl : walk (logged fn) (Join [path, child.name]) child (s, log) with
      | mk e2 s2 =>
        rw [hw, hl] at h1
        simp only at h1
        obtain ⟨he, hs⟩ := h1
        subst he
        obtain ⟨s2a, log2⟩ := s2
        simp only at hs
        subst hs
        have hrest := walkChildren_logged fn rest path s2a log2
        cases e2 with
        | none => exact hrest
        | some err =>
          simp only
          split
          · split
            · exact ⟨rfl, rfl⟩
            · exact hrest
          · split
            · exact ⟨rfl, rfl⟩
            · exact hrest
end

/-- The ghost log changes nothing: the walk with the logged callback returns the error and
the captured state of the walk with the callback itself. -/
theorem Walk_logged {σ : Type} (fn : WalkFunc σ) (root : Str) (tree : Node) (s : σ)
    (log : List (Str × Option FileInfo)) :
    (Walk (logged fn) root tree (s, log)).1 = (Walk fn root tree s).1 ∧
    (Walk (logged fn) root tree (s, log)).2.1 = (Walk fn root tree s).2 := by
  have h := walk_logged fn tree root s log
  unfold Walk
  cases hw : walk fn root tree s with
  | mk e s1 =>
    cases hl : walk (logged fn) root tree (s, log) with
    | mk e2 s2 =>
      rw [hw, hl] at h
      simp only at h
      obtain ⟨he, hs⟩ := h
      subst he
      cases e2 with
      | none => exact ⟨rfl, hs⟩
      | some err =>
        simp only
        split
        · exact ⟨rfl, hs⟩
        · exact ⟨rfl, hs⟩

/-- Step 3 of `handleRepo` without the ghost log: `binPath` is the exact-name candidate
when that is executable, and else what the walk with the closure itself leaves. -/
theorem findExecutable_binPath (env : Env) (tempDir repoURL : Str) :
    (findExecutable env tempDir repoURL).binPath =
      if isExecutable env (Join [tempDir, TrimSuffix (Base repoURL) ".git".toList]) then
        Join [tempDir, TrimSuffix (Base repoURL) ".git".toList]
      else (Walk walkFn tempDir (env.workspace tempDir) []).2 := by
  unfold findExecutable
  simp only
  split
  · rfl
  · exact (Walk_logged walkFn tempDir (env.workspace tempDir) [] []).2

theorem Contains_dot (s : Str) : Contains s ".".toList = false ↔ '.' ∉ s := by
  induction s with
  | nil => simp [Contains]
  | cons c s ih =>
    rw [Contains]
    have : ".".toList.isPrefixOf (c :: s) = ('.' == c) := by
      simp [List.isPrefixOf]
    rw [this]
    simp only [Bool.or_eq_false_iff, ih, List.mem_cons, not_or]
    constructor
    · rintro ⟨h1, h2⟩
      exact ⟨fun e => (by simpa using h1 : ¬ '.' = c) e, h2⟩
    · rintro ⟨h1, h2⟩
      exact ⟨by simpa using h1, h2⟩

mutual
theorem walkEntries_named :
    ∀ (node : Node) (path : Str), node.wellNamed → Base path = node.name →
      ∀ c ∈ walkEntries path node, ∀ i, c.2 = some i → Base c.1 = i.name
  | .file name mode, path, _, hb, c, hc, i, hi => by
    simp only [walkEntries, List.mem_singleton] at hc
    subst hc
    simp only [Option.some.injEq] at hi
    rw [← hi]; exact hb
  | .vanished _, path, _, hb, c, hc, i, hi => by
    simp only [walkEntries, List.mem_singleton] at hc
    subst hc
    simp at hi
  | .unreadable name mode, path, _, hb, c, hc, i, hi => by
    simp only [walkEntries, List.mem_singleton] at hc
    subst hc
    simp only [Option.some.injEq] at hi
    rw [← hi]; exact hb
  | .dir name mode children, path, hw, hb, c, hc, i, hi => by
    simp only [walkEntries, List.mem_cons] at hc
    rcases hc with hc | hc
    · subst hc
      simp only [Option.some.injEq] at hi
      rw [← hi]; exact hb
    · rw [Node.wellNamed] at hw
      exact walkEntriesList_named children path hw c hc i hi
theorem walkEntriesList_named :
    ∀ (children : List Node) (path : Str), wellNamedList children →
      ∀ c ∈ walkEntriesList path children, ∀ i, c.2 = some i → Base c.1 = i.name
  | [], path, _, c, hc, i, hi => by simp [walkEntriesList] at hc
  | child :: rest, path, hw, c, hc, i, hi => by
    rw [wellNamedList] at hw
    simp only [walkEntriesList, List.mem_append] at hc
    rcases hc with hc | hc
    · exact walkEntries_named child (Join [path, child.name]) hw.2.1
        (Base_Join path child.name hw.1) c hc i hi
    · exact walkEntriesList_named rest path hw.2.2 c hc i hi
end

theorem walkFn_step (entries : List (Str × Option FileInfo))
    (s : Str × List (Str × Option FileInfo)) (path : Str) (info : Option FileInfo) (err : Bool)
    (hq : (path, info) ∈ entries) (hs : walkInv entries s) :
    walkInv entries (logged walkFn s path info err).2 := by
  obtain ⟨hlog, hbin⟩ := hs
  have hlog2 : ∀ c ∈ s.2 ++ [(path, info)], c ∈ entries := by
    intro c hc
    rw [List.mem_append, List.mem_singleton] at hc
    rcases hc with hc | hc
    · exact hlog c hc
    · rw [hc]; exact hq
  have keep : walkInv entries (s.1, s.2 ++ [(path, info)]) := by
    refine ⟨hlog2, fun hne => ?_⟩
    obtain ⟨i, hi, rest⟩ := hbin hne
    exact ⟨i, List.mem_append_left _ hi, rest⟩
  unfold logged walkFn
  simp only
  split
  · exact keep
  · rename_i hguard
    cases info with
    | none => exact keep
    | some i =>
      simp only
      split
      · exact keep
      · rename_i hdir
        split
        · exact keep
        · rename_i hgit
          split
          · rename_i hsel
            refine ⟨hlog2, fun _ => ⟨i, by simp, by simpa using hdir, (Contains_dot _).1 hsel.2,
              hsel.1, by simpa using hgit⟩⟩
          · exact keep

theorem findExecutable_walk_inv (env : Env) (tempDir repoURL : Str)
    (hexact : isExecutable env (Join [tempDir, TrimSuffix (Base repoURL) ".git".toList]) = false) :
    walkInv (walkEntries tempDir (env.workspace tempDir))
      ((findExecutable env tempDir repoURL).binPath,
        (findExecutable env tempDir repoURL).walkCalls) := by
  have h := Walk_inv (logged walkFn) (walkInv (walkEntries tempDir (env.workspace tempDir)))
    (fun c => c ∈ walkEntries tempDir (env.workspace tempDir))
    (fun s path info err hq hs => walkFn_step _ s path info err hq hs)
    tempDir (env.workspace tempDir) ([], []) (fun c hc => hc)
    ⟨by simp, fun h => absurd rfl h⟩
  unfold findExecutable
  simp only [hexact]
  exact h

/-! ## Source classification and the pipeline driver -/

/-- C1: `processSource` hands a source to the repository handler exactly when the source
ends with `.git` and to the download handler otherwise; this holds for any pair of
handlers, so the choice is a function of the identifier alone. -/
theorem processSource_routes_by_suffix (source : Str) :
    (processSourceWith (fun _ => Handler.repo) (fun _ => Handler.file) source = Handler.repo ↔
      ".git".toList <:+ source) ∧
    (processSourceWith (fun _ => Handler.repo) (fun _ => Handler.file) source = Handler.file ↔
      ¬ ".git".toList <:+ source) ∧
    (∀ (α : Type) (onRepo onFile : Str → α),
      (".git".toList <:+ source → processSourceWith onRepo onFile source = onRepo source) ∧
      (¬ ".git".toList <:+ source → processSourceWith onRepo onFile source = onFile source)) ∧
    (∀ (env : Env) (d : Disk),
      (".git".toList <:+ source → processSource env source d = handleRepo env source d) ∧
      (¬ ".git".toList <:+ source → processSource env source d = handleFile env source d)) := by
  have key : ∀ (α : Type) (onRepo onFile : Str → α),
      (".git".toList <:+ source → processSourceWith onRepo onFile source = onRepo source) ∧
      (¬ ".git".toList <:+ source → processSourceWith onRepo onFile source = onFile source) := by
    intro α onRepo onFile
    constructor
    · intro h
      unfold processSourceWith
      rw [if_pos ((HasSuffix_iff _ _).2 h)]
    · intro h
      unfold processSourceWith
      rw [if_neg (fun hs => h ((HasSuffix_iff _ _).1 hs))]
  refine ⟨?_, ?_, key, ?_⟩
  · by_cases h : ".git".toList <:+ source
    · rw [(key Handler _ _).1 h]; exact ⟨fun _ => h, fun _ => rfl⟩
    · rw [(key Handler _ _).2 h]
      exact ⟨fun h1 => absurd h1 (by decide), fun h1 => absurd h1 h⟩
  · by_cases h : ".git".toList <:+ source
    · rw [(key Handler _ _).1 h]
      exact ⟨fun h1 => absurd h1 (by decide), fun h1 => absurd h h1⟩
    · rw [(key Handler _ _).2 h]; exact ⟨fun _ => h, fun _ => rfl⟩
  · intro env d
    exact key _ (fun s => handleRepo env s d) (fun s => handleFile env s d)

/-- C1 at `https://example.com/foo.git` and `https://example.com/tool`: the first goes to
the repository handler, the second to the download handler. -/
theorem processSource_routes_by_suffix_witness :
    processSourceWith (fun _ => Handler.repo) (fun _ => Handler.file)
      "https://example.com/foo.git".toList = Handler.repo ∧
    processSourceWith (fun _ => Handler.repo) (fun _ => Handler.file)
      "https://example.com/tool".toList = Handler.file :=
  ⟨(processSource_routes_by_suffix "https://example.com/foo.git".toList).1.2 (by decide),
    (processSource_routes_by_suffix "https://example.com/tool".toList).2.1.2 (by decide)⟩

/-- C2, as stated, fails: when the output directory cannot be created `main` exits with
status 1 before the loop, so the one configured source is never passed on. -/
theorem main_skips_sources_without_output_dir :
    noDirEnv.getenv envSources ≠ [] ∧
    configuredEntries (noDirEnv.getenv envSources) = ["https://example.com/tool".toList] ∧
    attempts (main noDirEnv emptyDisk).out = [] ∧
    attempts (main noDirEnv emptyDisk).out ≠ configuredEntries (noDirEnv.getenv envSources) ∧
    (main noDirEnv emptyDisk).exitCode = 1 := by
  decide

/-- C2, amended: for a non-empty configuration value, once the output directory has been
created, the identifiers passed to `processSource` are exactly the comma-separated
entries, trimmed, without the blank ones, in the configured order, whatever the handlers
return: for `main`, and for `main` over any `processSource` acting on any state, where the
final state is the one obtained by running `processSource` over those entries in order. -/
theorem main_attempts_configured (env : Env) (d : Disk)
    (hvalue : env.getenv envSources ≠ []) (hdir : env.mkdirAll pluginsDir = true) :
    attempts (main env d).out = configuredEntries (env.getenv envSources) ∧
    (attempts (main env d).out).length = (configuredEntries (env.getenv envSources)).length ∧
    (main env d).state =
      (configuredEntries (env.getenv envSources)).foldl (fun s e => (processSource env e s).2)
        (d.mkdir pluginsDir) ∧
    (∀ (σ : Type) (ps : Str → σ → Option Err × σ) (mkdirAll : σ → Option σ)
        (value : Str) (st st1 : σ), value ≠ [] → mkdirAll st = some st1 →
      attempts (mainWith ps mkdirAll value st).out = configuredEntries value ∧
      (mainWith ps mkdirAll value st).state =
        (configuredEntries value).foldl (fun s e => (ps e s).2) st1) := by
  have h := mainWith_run (processSource env)
    (fun d => if env.mkdirAll pluginsDir then some (d.mkdir pluginsDir) else none)
    (env.getenv envSources) d (d.mkdir pluginsDir) hvalue (by simp [hdir])
  refine ⟨h.1, by rw [show attempts (main env d).out = _ from h.1], h.2.1, ?_⟩
  intro σ ps mkdirAll value st st1 hv hm
  have h2 := mainWith_run ps mkdirAll value st st1 hv hm
  exact ⟨h2.1, h2.2.1⟩

/-- C2, amended, at the list `https://example.com/tool, ,https://example.com/foo.git`: two
attempts, in order, the blank entry dropped. -/
theorem main_attempts_configured_witness :
    attempts (main twoSourcesEnv emptyDisk).out =
      ["https://example.com/tool".toList, "https://example.com/foo.git".toList] :=
  ((main_attempts_configured twoSourcesEnv emptyDisk (by decide) (by decide)).1).trans
    (by decide)

/-! ## The download handler -/

/-- C3, as stated, fails: a `204 No Content` answer is a success status (2xx) delivered
without transport error, and `handleFile` rejects it with `bad status`. -/
theorem handleFile_rejects_no_content :
    (handleFile noContentEnv "https://example.com/tool".toList emptyDisk).1
      = some (Err.badStatus 204) ∧
    (Err.badStatus 204).isFetch = true ∧
    noContentEnv.httpGet "https://example.com/tool".toList
      = HttpResult.response 204 ⟨[], false⟩ ∧
    (200 ≤ 204 ∧ 204 ≤ 299) := by
  decide

/-- C3, amended: `handleFile` fails with a fetch error exactly when the transport fails or
the status code is not 200; a response with status 200 is not rejected, its body goes to
`writeExecutable`; a transport failure gives `download failed`, any other status
`bad status`, and both leave the disk as it was. -/
theorem handleFile_fetch_error_iff (env : Env) (url : Str) (d : Disk) :
    ((∃ e, (handleFile env url d).1 = some e ∧ e.isFetch = true) ↔
      (env.httpGet url = HttpResult.transportError ∨
        ∃ statusCode body, env.httpGet url = HttpResult.response statusCode body ∧
          statusCode ≠ 200)) ∧
    (∀ body, env.httpGet url = HttpResult.response 200 body →
      handleFile env url d = writeExecutable env (downloadDest url) body d) ∧
    (env.httpGet url = HttpResult.transportError →
      handleFile env url d = (some Err.downloadFailed, d)) ∧
    (∀ statusCode body, env.httpGet url = HttpResult.response statusCode body →
      statusCode ≠ 200 → handleFile env url d = (some (Err.badStatus statusCode), d)) := by
  refine ⟨?_, ?_, fun hg => by simp [handleFile, hg],
    fun sc body hg hs => by simp [handleFile, hg, hs]⟩
  · constructor
    · rintro ⟨e, he, hf⟩
      cases hg : env.httpGet url with
      | transportError => exact Or.inl rfl
      | response sc body =>
        right
        refine ⟨sc, body, rfl, ?_⟩
        intro hs
        subst hs
        simp only [handleFile, hg, ne_eq, not_true_eq_false, if_false] at he
        rcases writeExecutable_err env _ body d e he with h1 | h1 | h1
        · rw [h1.1] at hf; exact absurd hf (by decide)
        · rw [h1] at hf; exact absurd hf (by decide)
        · rw [h1] at hf; exact absurd hf (by decide)
    · rintro (hg | ⟨sc, body, hg, hs⟩)
      · exact ⟨Err.downloadFailed, by simp [handleFile, hg], rfl⟩
      · exact ⟨Err.badStatus sc, by simp [handleFile, hg, hs], rfl⟩
  · intro body hg
    simp [handleFile, hg]

/-- C3, amended, at a server that answers `200 OK`: the body goes to `writeExecutable`
with destination `/plugins/tool`. -/
theorem handleFile_fetch_error_iff_witness :
    handleFile quietEnv "https://example.com/tool".toList emptyDisk
      = writeExecutable quietEnv (downloadDest "https://example.com/tool".toList)
          ⟨[], false⟩ emptyDisk :=
  (handleFile_fetch_error_iff quietEnv "https://example.com/tool".toList emptyDisk).2.1
    ⟨[], false⟩ rfl

/-! ## Destination of a download -/

/-- C5, as stated, fails: for a URL whose last segment is `..` the destination is `/`,
outside the output directory, and for a last segment `.` it is `/plugins` itself. -/
theorem downloadDest_leaves_pluginsDir :
    Base "https://example.com/..".toList = "..".toList ∧
    downloadDest "https://example.com/..".toList = "/".toList ∧
    Base "https://example.com/.".toList = ".".toList ∧
    downloadDest "https://example.com/.".toList = "/plugins".toList := by
  decide

/-- C5, amended: for every URL whose last path segment (`filepath.Base`) is none of `.`,
`..` and `/`, the destination handed to `writeExecutable` is `/plugins/` followed by that
segment, a non-empty name without separator; its directory (`filepath.Dir`) is `/plugins`,
its own last segment is that name, and it is not `/plugins` itself. -/
theorem downloadDest_inside_pluginsDir (url : Str) (hdot : Base url ≠ ['.'])
    (hdotdot : Base url ≠ ['.', '.']) (hroot : Base url ≠ ['/']) :
    downloadDest url = pluginsDir ++ '/' :: Base url ∧
    Base url ≠ [] ∧ '/' ∉ Base url ∧
    Dir (downloadDest url) = pluginsDir ∧
    Base (downloadDest url) = Base url ∧
    downloadDest url ≠ pluginsDir := by
  have hname : plainName (Base url) := ⟨Base_ne_nil url, Base_noSep url hroot, hdot, hdotdot⟩
  have hdest : downloadDest url = pluginsDir ++ '/' :: Base url := Join_pluginsDir _ hname
  refine ⟨hdest, hname.1, hname.2.1, ?_, Base_Join pluginsDir _ hname, ?_⟩
  · rw [hdest]; exact Dir_pluginsDir _ hname.2.1
  · rw [hdest]
    intro h
    have := congrArg List.length h
    simp at this

/-- C5, amended, at `https://example.com/tool`: the destination is `/plugins/tool`. -/
theorem downloadDest_inside_pluginsDir_witness :
    downloadDest "https://example.com/tool".toList = "/plugins/tool".toList :=
  (downloadDest_inside_pluginsDir "https://example.com/tool".toList (by decide) (by decide)
    (by decide)).1.trans (by decide)

/-! ## The installer -/

/-- C4, as stated, fails: a download whose copy breaks off after one byte returns an
error, and the output directory holds a new one-byte file `/plugins/tool`; a download
whose `os.Chmod` fails returns an error and leaves the whole file, with the mode it was
created with; and a build whose Makefile copies a file into the output directory and then
fails returns the build error and leaves that file. -/
theorem failed_copy_leaves_partial_file :
    (processSource diskFullEnv "https://example.com/tool".toList emptyDisk).1
      = some Err.copyFailed ∧
    (processSource diskFullEnv "https://example.com/tool".toList emptyDisk).2.files
      "/plugins/tool".toList = some ⟨[127], 0o644⟩ ∧
    emptyDisk.files "/plugins/tool".toList = none ∧
    (processSource noChmodEnv "https://example.com/tool".toList emptyDisk).1
      = some Err.chmodFailed ∧
    (processSource noChmodEnv "https://example.com/tool".toList emptyDisk).2.files
      "/plugins/tool".toList = some ⟨[127, 69, 76], 0o644⟩ ∧
    (processSource installingMakeEnv "https://example.com/foo.git".toList emptyDisk).1
      = some Err.makeFailed ∧
    (processSource installingMakeEnv "https://example.com/foo.git".toList emptyDisk).2.files
      "/plugins/stale".toList = some ⟨[35], 0o644⟩ ∧
    emptyDisk.files "/plugins/stale".toList = none := by
  decide

/-- C4, amended: when processing a source returns an error other than a copy or chmod
failure inside `writeExecutable` (temp-dir, fetch, clone, build, artifact-not-found, open
or create failure), every file that lies outside the ephemeral workspace of that source
and that the external commands `git clone` and `make` themselves leave as it is, exists
with the same content and mode as before: the program has not created or overwritten
it. -/
theorem processSource_error_keeps_files (env : Env) (source : Str) (d : Disk) (e : Err)
    (p : Str) (herr : (processSource env source d).1 = some e)
    (hcopy : e ≠ Err.copyFailed) (hchmod : e ≠ Err.chmodFailed)
    (hout : ∀ tempDir, env.mkdirTemp = some tempDir → isUnder tempDir p = false)
    (hclone : ∀ tempDir d0, (env.gitClone source tempDir d0).2 p = d0.files p)
    (hmake : ∀ tempDir d0, (env.make tempDir d0).2 p = d0.files p) :
    (processSource env source d).2.files p = d.files p := by
  unfold processSource processSourceWith at herr ⊢
  by_cases hs : HasSuffix source ".git".toList = true
  · rw [if_pos hs] at herr ⊢
    unfold handleRepo at herr ⊢
    cases ht : env.mkdirTemp with
    | none => rfl
    | some tempDir =>
      simp only [ht] at herr ⊢
      have hb := handleRepoBody_err env source tempDir (d.mkdir tempDir) e p herr hcopy hchmod
        hclone hmake
      by_cases hr : env.removeAll tempDir = true
      · simp only [hr, if_true, Disk.removeAll, hout tempDir ht, Bool.false_eq_true, if_false]
        exact hb
      · simp only [hr, if_false, Bool.false_eq_true]
        exact hb
  · rw [if_neg hs] at herr ⊢
    rw [handleFile_err env source d e herr hcopy hchmod]

/-- C4, amended, at a repository whose clone fails: `/plugins/tool` is as before. -/
theorem processSource_error_keeps_files_witness :
    (processSource cloneFailsEnv "https://example.com/foo.git".toList emptyDisk).2.files
      "/plugins/tool".toList = emptyDisk.files "/plugins/tool".toList :=
  processSource_error_keeps_files cloneFailsEnv "https://example.com/foo.git".toList emptyDisk
    (Err.cloneFailed "fatal".toList) "/plugins/tool".toList (by decide) (by decide)
    (by decide) (by intro tempDir h; cases h; decide) (fun _ _ => rfl) (fun _ _ => rfl)

/-- C10: whenever `writeExecutable` returns without error, the destination holds exactly
the bytes the stream delivered, with mode 0755 (execute for owner, group and other, write
for the owner only); the mode of the file the bytes came from is no input of it. -/
theorem writeExecutable_installs (env : Env) (path : Str) (r : Reader) (d : Disk)
    (hok : (writeExecutable env path r d).1 = none) :
    (writeExecutable env path r d).2.files path = some ⟨r.bytes, 0o755⟩ ∧
    r.fails = false ∧
    (0o755 &&& 0o111 = 0o111 ∧ 0o755 &&& 0o222 = 0o200) := by
  unfold writeExecutable at hok ⊢
  by_cases hc : env.create path = false
  · simp [hc] at hok
  · simp only [hc, if_false] at hok ⊢
    cases hl : env.writeLimit path with
    | some k => simp [hl] at hok
    | none =>
      simp only [hl] at hok ⊢
      by_cases hf : r.fails = true
      · simp [hf] at hok
      · by_cases hm : env.chmod path = false
        · simp [hf, hm] at hok
        · refine ⟨by simp [hf, hm, Disk.setFile], by simpa using hf, by decide⟩

/-- C10 at a download of three bytes into an existing file of mode 0600. -/
theorem writeExecutable_installs_witness :
    (writeExecutable quietEnv "/plugins/tool".toList ⟨[127, 69, 76], false⟩
      (emptyDisk.setFile "/plugins/tool".toList ⟨[1], 0o600⟩)).2.files "/plugins/tool".toList
      = some ⟨[127, 69, 76], 0o755⟩ :=
  (writeExecutable_installs quietEnv "/plugins/tool".toList ⟨[127, 69, 76], false⟩
    (emptyDisk.setFile "/plugins/tool".toList ⟨[1], 0o600⟩) (by decide)).1

/-! ## The locator -/

/-- C6: when `os.Stat` of `<workspace>/<repoBasename>` reports a non-directory with an
execute bit, step 3 of `handleRepo` selects exactly that path and makes no call of the
tree walk, whatever the workspace contains; for `https://example.com/foo.git` the path is
`<workspace>/foo` and the artifact is installed as `/plugins/foo`. -/
theorem findExecutable_exact_match (env : Env) (tempDir repoURL : Str) (info : FileInfo)
    (hstat : env.stat (Join [tempDir, TrimSuffix (Base repoURL) ".git".toList]) = some info)
    (hfile : info.isDir = false) (hexec : info.mode &&& 0o111 ≠ 0) :
    (findExecutable env tempDir repoURL).binPath
      = Join [tempDir, TrimSuffix (Base repoURL) ".git".toList] ∧
    (findExecutable env tempDir repoURL).walkCalls = [] ∧
    (repoURL = "https://example.com/foo.git".toList →
      (findExecutable env tempDir repoURL).binPath = Join [tempDir, "foo".toList] ∧
      installDest (findExecutable env tempDir repoURL).binPath = "/plugins/foo".toList ∧
      ∀ (d : Disk) (f : Reader), (env.gitClone repoURL tempDir d).1 = none →
        (env.make tempDir (afterClone env repoURL tempDir d)).1 = true →
        env.openFile (Join [tempDir, "foo".toList]) = some f →
        handleRepoBody env repoURL tempDir d
          = writeExecutable env "/plugins/foo".toList f
              (afterMake env tempDir (afterClone env repoURL tempDir d))) := by
  have hexe : isExecutable env (Join [tempDir, TrimSuffix (Base repoURL) ".git".toList])
      = true := by
    unfold isExecutable
    rw [hstat]
    simp [hfile, hexec]
  have hbin : (findExecutable env tempDir repoURL).binPath
      = Join [tempDir, TrimSuffix (Base repoURL) ".git".toList] := by
    unfold findExecutable
    simp only [hexe, if_true]
  have hcalls : (findExecutable env tempDir repoURL).walkCalls = [] := by
    unfold findExecutable
    simp only [hexe, if_true]
  refine ⟨hbin, hcalls, ?_⟩
  intro hurl
  have hname : TrimSuffix (Base repoURL) ".git".toList = "foo".toList := by
    rw [hurl]; decide
  have hfoo : plainName "foo".toList := ⟨by decide, by decide, by decide, by decide⟩
  have hbin2 : (findExecutable env tempDir repoURL).binPath = Join [tempDir, "foo".toList] := by
    rw [hbin, hname]
  have hdest : installDest (Join [tempDir, "foo".toList]) = "/plugins/foo".toList := by
    unfold installDest
    rw [Base_Join tempDir _ hfoo]
    decide
  refine ⟨hbin2, by rw [hbin2]; exact hdest, ?_⟩
  intro d f hclone hmake hopen
  have hne : Join [tempDir, "foo".toList] ≠ [] := by
    intro h
    have h2 := Base_Join tempDir _ hfoo
    rw [h] at h2
    exact absurd h2 (by decide)
  unfold handleRepoBody
  simp only [hclone, hmake, Bool.true_eq_false, if_false, hbin2, hne, hopen, hdest]

/-- C6 at a workspace that holds `foo` next to the executable `bar`, which the tree walk
would reach first. -/
theorem findExecutable_exact_match_witness :
    (findExecutable fooBuiltEnv "/tmp/telegraf-plugin-build-1".toList
      "https://example.com/foo.git".toList).binPath
      = "/tmp/telegraf-plugin-build-1/foo".toList ∧
    (findExecutable fooBuiltEnv "/tmp/telegraf-plugin-build-1".toList
      "https://example.com/foo.git".toList).walkCalls = [] :=
  ⟨(findExecutable_exact_match fooBuiltEnv "/tmp/telegraf-plugin-build-1".toList
      "https://example.com/foo.git".toList ⟨"foo".toList, false, 0o755⟩ (by decide) rfl
      (by decide)).1.trans (by decide),
    (findExecutable_exact_match fooBuiltEnv "/tmp/telegraf-plugin-build-1".toList
      "https://example.com/foo.git".toList ⟨"foo".toList, false, 0o755⟩ (by decide) rfl
      (by decide)).2.1⟩

/-- What `os.Stat` and `os.Lstat` told the code about the path that step 3 of `handleRepo`
yields: either it is the exact-name candidate and `os.Stat` reported a non-directory, or
the tree walk passed it to the closure as an entry of the workspace with an `Lstat` record
that is no directory and whose name has no `.`; in a tree whose entries are listed under
plain names that name is `filepath.Base` of the path. -/
theorem findExecutable_yields_entry (env : Env) (tempDir repoURL : Str)
    (hfound : (findExecutable env tempDir repoURL).binPath ≠ []) :
    (isExecutable env (Join [tempDir, TrimSuffix (Base repoURL) ".git".toList]) = true ∧
      (findExecutable env tempDir repoURL).walkCalls = [] ∧
      ∃ info, env.stat (findExecutable env tempDir repoURL).binPath = some info ∧
        info.isDir = false) ∨
    (isExecutable env (Join [tempDir, TrimSuffix (Base repoURL) ".git".toList]) = false ∧
      ∃ info, ((findExecutable env tempDir repoURL).binPath, some info)
          ∈ (findExecutable env tempDir repoURL).walkCalls ∧
        ((findExecutable env tempDir repoURL).binPath, some info)
          ∈ walkEntries tempDir (env.workspace tempDir) ∧
        info.isDir = false ∧ '.' ∉ info.name ∧
        ((env.workspace tempDir).wellNamed → Base tempDir = (env.workspace tempDir).name →
          Base (findExecutable env tempDir repoURL).binPath = info.name ∧
          '.' ∉ Base (findExecutable env tempDir repoURL).binPath)) := by
  cases hexe : isExecutable env (Join [tempDir, TrimSuffix (Base repoURL) ".git".toList]) with
  | true =>
    left
    refine ⟨rfl, ?_, ?_⟩
    · unfold findExecutable
      simp only [hexe, if_true]
    · have hbin : (findExecutable env tempDir repoURL).binPath
          = Join [tempDir, TrimSuffix (Base repoURL) ".git".toList] := by
        unfold findExecutable
        simp only [hexe, if_true]
      rw [hbin]
      unfold isExecutable at hexe
      cases hs : env.stat (Join [tempDir, TrimSuffix (Base repoURL) ".git".toList]) with
      | none => rw [hs] at hexe; simp at hexe
      | some info =>
        rw [hs] at hexe
        simp only [Bool.and_eq_true, Bool.not_eq_true'] at hexe
        exact ⟨info, rfl, hexe.1⟩
  | false =>
    right
    refine ⟨rfl, ?_⟩
    obtain ⟨hlog, hbin⟩ := findExecutable_walk_inv env tempDir repoURL hexe
    obtain ⟨info, hmem, hdir, hdot, _, _⟩ := hbin hfound
    refine ⟨info, hmem, hlog _ hmem, hdir, hdot, ?_⟩
    intro hwell hroot
    have hbase := walkEntries_named (env.workspace tempDir) tempDir hwell hroot _
      (hlog _ hmem) info rfl
    simp only at hbase
    exact ⟨hbase, by rw [hbase]; exact hdot⟩

/-- C7 fails on the code: in a workspace where `bin` is a symbolic link to a directory
(`Lstat`: a link with mode `Lrwxrwxrwx`, `Stat`: a directory) and no file is named after
the repository, the tree walk yields `<workspace>/bin`, a path that `os.Stat` reports as a
directory; `handleRepo` then opens it, creates `/plugins/bin`, fails in the copy and
leaves that file empty. -/
theorem findExecutable_selects_linked_directory :
    isExecutable linkedDirEnv (Join ["/tmp/telegraf-plugin-build-1".toList,
      TrimSuffix (Base "https://example.com/foo.git".toList) ".git".toList]) = false ∧
    (findExecutable linkedDirEnv "/tmp/telegraf-plugin-build-1".toList
      "https://example.com/foo.git".toList).binPath
      = "/tmp/telegraf-plugin-build-1/bin".toList ∧
    ("/tmp/telegraf-plugin-build-1/bin".toList, some ⟨"bin".toList, false, 0o1000000777⟩)
      ∈ (findExecutable linkedDirEnv "/tmp/telegraf-plugin-build-1".toList
        "https://example.com/foo.git".toList).walkCalls ∧
    linkedDirEnv.stat (findExecutable linkedDirEnv "/tmp/telegraf-plugin-build-1".toList
      "https://example.com/foo.git".toList).binPath = some ⟨"bin".toList, true, 0o755⟩ ∧
    isExecutable linkedDirEnv (findExecutable linkedDirEnv
      "/tmp/telegraf-plugin-build-1".toList "https://example.com/foo.git".toList).binPath
      = false ∧
    (handleRepo linkedDirEnv "https://example.com/foo.git".toList emptyDisk).1
      = some Err.copyFailed ∧
    (handleRepo linkedDirEnv "https://example.com/foo.git".toList emptyDisk).2.files
      "/plugins/bin".toList = some ⟨[], 0o644⟩ := by
  decide

/-- C8 fails on the code: in a workspace with the files `.gitignore` and `plugin`
(executable, no `.` in its name, not below any `.git` directory; `.gitignore` sorts first)
the exact-name candidate does not qualify, the walk stops at `.gitignore` and never
reaches `plugin`, and `handleRepo` reports that no executable was found. -/
theorem findExecutable_stops_at_gitignore :
    ".gitignore".toList < "plugin".toList ∧
    isExecutable ignoreFileEnv (Join ["/tmp/telegraf-plugin-build-1".toList,
      TrimSuffix (Base "https://example.com/foo.git".toList) ".git".toList]) = false ∧
    ("/tmp/telegraf-plugin-build-1/plugin".toList, some ⟨"plugin".toList, false, 0o755⟩)
      ∈ walkEntries "/tmp/telegraf-plugin-build-1".toList
        (ignoreFileEnv.workspace "/tmp/telegraf-plugin-build-1".toList) ∧
    (findExecutable ignoreFileEnv "/tmp/telegraf-plugin-build-1".toList
      "https://example.com/foo.git".toList).walkCalls
      = [("/tmp/telegraf-plugin-build-1".toList,
            some ⟨"telegraf-plugin-build-1".toList, true, 0o700⟩),
          ("/tmp/telegraf-plugin-build-1/.gitignore".toList,
            some ⟨".gitignore".toList, false, 0o644⟩)] ∧
    (findExecutable ignoreFileEnv "/tmp/telegraf-plugin-build-1".toList
      "https://example.com/foo.git".toList).binPath = [] ∧
    (handleRepo ignoreFileEnv "https://example.com/foo.git".toList emptyDisk).1
      = some Err.noBinary := by
  decide

/-! ## The repository handler -/

/-- C9: once `os.MkdirTemp` has created the workspace, and provided the deferred
`os.RemoveAll` succeeds, the workspace and everything beneath it is gone when
`handleRepo` returns, whatever the clone, the build, the search, the opening of the
artifact and the installer do; until that removal the workspace exists. -/
theorem handleRepo_removes_workspace (env : Env) (repoURL : Str) (d : Disk) (tempDir : Str)
    (htemp : env.mkdirTemp = some tempDir) (hremove : env.removeAll tempDir = true) :
    (handleRepo env repoURL d).2.dirs tempDir = false ∧
    (∀ p, isUnder tempDir p = true →
      (handleRepo env repoURL d).2.dirs p = false ∧
      (handleRepo env repoURL d).2.files p = none) ∧
    (handleRepoBody env repoURL tempDir (d.mkdir tempDir)).2.dirs tempDir = true := by
  have hself : isUnder tempDir tempDir = true := by simp [isUnder]
  refine ⟨?_, ?_, ?_⟩
  · simp [handleRepo, htemp, hremove, Disk.removeAll, hself]
  · intro p hp
    simp [handleRepo, htemp, hremove, Disk.removeAll, hp]
  · rw [handleRepoBody_dirs]
    simp [Disk.mkdir]

/-- C9 at a repository whose clone fails. -/
theorem handleRepo_removes_workspace_witness :
    (handleRepo cloneFailsEnv "https://example.com/foo.git".toList emptyDisk).2.dirs
      "/tmp/telegraf-plugin-build-1".toList = false :=
  (handleRepo_removes_workspace cloneFailsEnv "https://example.com/foo.git".toList
    emptyDisk "/tmp/telegraf-plugin-build-1".toList rfl rfl).1

end PluginLoader
